import Mathlib

/-!
Verification of the drivetrain telemetry pipeline (filter.py).

The pipeline operates on pandas DataFrames holding a time column and two
wheel-speed columns.  We embed a DataFrame as a list of rows with exact
rational values.  NaN cells (including cells that fail numeric coercion)
are modelled as none in an Option-valued cell.  Rounding to three decimal
places mirrors the numpy and pandas round function, which rounds half to
even.
-/

/-!
Verification of the drivetrain telemetry pipeline (filter.py).

The pipeline operates on pandas DataFrames holding a time column and two
wheel-speed columns.  We embed a DataFrame as a list of rows with exact
rational values.  NaN cells (including cells that fail numeric coercion)
are modelled as none in an Option-valued cell.  Rounding to three decimal
places mirrors the numpy and pandas round function, which rounds half to
even.
-/

attribute [local semireducible] Rat.mul Rat.inv Rat.add Rat.sub Rat.ofScientific

/-- Round a rational to the nearest integer, ties to even, mirroring the
numpy rounding used by the round method of pandas DataFrames. -/
def roundHalfEven (x : ℚ) : ℤ :=
  if x - (⌊x⌋ : ℤ) < 1/2 then ⌊x⌋
  else if 1/2 < x - (⌊x⌋ : ℤ) then ⌊x⌋ + 1
  else if Even ⌊x⌋ then ⌊x⌋ else ⌊x⌋ + 1

/-- Rounding to three decimal places, as in DataFrame.round applied with
argument 3. -/
def round3 (x : ℚ) : ℚ := (roundHalfEven (x * 1000) : ℚ) / 1000

/-- A rational that is an integer multiple of one thousandth, i.e. a value
expressible with at most three decimal digits.  All values produced by the
binned view and by the cleaner are of this shape. -/
def IsMilli (x : ℚ) : Prop := (x * 1000).den = 1

instance (x : ℚ) : Decidable (IsMilli x) :=
  inferInstanceAs (Decidable ((x * 1000).den = 1))

/-- One telemetry row after numeric coercion: time in seconds, right rear
and left rear wheel speed in rpm. -/
structure Sample where
  time : ℚ
  rr : ℚ
  rl : ℚ
deriving DecidableEq, Repr

/-- One telemetry row as loaded: the wheel-speed cells may be NaN or fail
numeric coercion, which is modelled by none. -/
structure RawRow where
  time : ℚ
  rr : Option ℚ
  rl : Option ℚ
deriving DecidableEq, Repr

/-- A differential-load event row: the input row plus the added difference
column. -/
structure DiffRow where
  time : ℚ
  rr : ℚ
  rl : ℚ
  difference : ℚ
deriving DecidableEq, Repr

/-- A slip event row: the input row plus the three added columns time_gap,
rr_diff and rl_diff. -/
structure SlipRow where
  time : ℚ
  rr : ℚ
  rl : ℚ
  time_gap : ℚ
  rr_diff : ℚ
  rl_diff : ℚ
deriving DecidableEq, Repr

/-- A row carrying a steering angle column, for filter_by_steering. -/
structure SteerRow where
  time : ℚ
  rr : ℚ
  rl : ℚ
  steering : ℚ
deriving DecidableEq, Repr

def round3Sample (s : Sample) : Sample :=
  ⟨round3 s.time, round3 s.rr, round3 s.rl⟩

def round3Diff (r : DiffRow) : DiffRow :=
  ⟨round3 r.time, round3 r.rr, round3 r.rl, round3 r.difference⟩

def round3Slip (r : SlipRow) : SlipRow :=
  ⟨round3 r.time, round3 r.rr, round3 r.rl, round3 r.time_gap,
    round3 r.rr_diff, round3 r.rl_diff⟩

/-- Comparison of samples by the time column, the sort key used by
sort_values on the time column. -/
def timeLE (a b : Sample) : Prop := a.time ≤ b.time

instance : DecidableRel timeLE :=
  fun a b => inferInstanceAs (Decidable (a.time ≤ b.time))

instance : IsTotal Sample timeLE := ⟨fun a b => le_total a.time b.time⟩

instance : IsTrans Sample timeLE := ⟨fun _ _ _ h1 h2 => le_trans h1 h2⟩

/-- Chronological sort of the rows, embedding sort_values on the time
column. -/
def sortByTime (d : List Sample) : List Sample := List.insertionSort timeLE d

/-- Arithmetic mean of a list of rationals, embedding the pandas mean. -/
def mean (l : List ℚ) : ℚ := l.sum / l.length

/-- Sample variance with one delta degree of freedom, the square of the
pandas rolling std.  For lists of length below two the pandas std is NaN,
which the cleaner guards before this is used. -/
def svar (l : List ℚ) : ℚ :=
  ((l.map fun x => (x - mean l) ^ 2).sum) / ((l.length : ℚ) - 1)

/-- Bucket start for the binned view: time floor-divided by the bin width
and scaled back, exactly line 83 of filter.py. -/
def bucket (b t : ℚ) : ℚ := (⌊t / b⌋ : ℚ) * b

/-- The groupby-mean of line 84: group rows by equal time value, keys in
ascending order as pandas groupby sorts its keys, and average the numeric
columns of each group. -/
def groupMeans (rows : List Sample) : List Sample :=
  (List.insertionSort (· ≤ ·) ((rows.map Sample.time).dedup)).map fun k =>
    let g := rows.filter fun s => decide (s.time = k)
    ⟨k, mean (g.map Sample.rr), mean (g.map Sample.rl)⟩

/-- The raw view returned by load_data: rows sorted chronologically and
rounded to three decimals.  Note that load_data does not deduplicate the
raw view. -/
def rawView (d : List Sample) : List Sample :=
  (sortByTime d).map round3Sample

/-- The binned view returned by load_data: each time replaced by its
bucket start, then a groupby mean over the bucket, rounded to three
decimals (lines 83 and 84 of filter.py). -/
def binnedView (d : List Sample) (b : ℚ) : List Sample :=
  (groupMeans ((sortByTime d).map fun s => { s with time := bucket b s.time })).map
    round3Sample

/-- load_data, after CSV parsing and column validation: returns the raw
view and the binned view. -/
def load_data (d : List Sample) (b : ℚ) : List Sample × List Sample :=
  (rawView d, binnedView d b)

/-- Line 109 of filter.py: dropna on the two wheel-speed columns, keeping
the rows whose cells are numeric (some) and projecting to coerced rows. -/
def dropna (d : List RawRow) : List Sample :=
  d.filterMap fun r =>
    match r.rr, r.rl with
    | some a, some c => some ⟨r.time, a, c⟩
    | _, _ => none

/-- Lines 114 to 117 of filter.py: keep the rows whose wheel speeds both
lie in the inclusive range from minR to maxR. -/
def rangeFilter (minR maxR : ℚ) (d : List Sample) : List Sample :=
  d.filter fun s =>
    decide (minR ≤ s.rr ∧ s.rr ≤ maxR ∧ minR ≤ s.rl ∧ s.rl ≤ maxR)

/-- The z-score acceptance test of line 132 for one column value, with the
rolling std already squared into the variance v.  The code replaces a std
of exactly zero by one and then tests that the absolute z-score is at most
z; for a nonzero std this comparison is squared here so that it stays in
exact rational arithmetic, which is equivalent for the positive z of the
branch that uses it. -/
def zPass (dev v z : ℚ) : Bool :=
  if v = 0 then decide (|dev| ≤ z) else decide (dev ^ 2 ≤ z ^ 2 * v)

/-- The centered rolling window of width w at position i of a column, as
produced by rolling with center set.  The window start is i minus half of
w minus one, truncated at zero; validity of the bounds is checked by the
caller. -/
def window (col : List ℚ) (w i : ℕ) : List ℚ :=
  (col.drop (i - (w - 1) / 2)).take w

/-- One column of the rolling z-score test of lines 124 to 132: the value
at i against the mean and variance of its centered window. -/
def colPass (col : List ℚ) (z : ℚ) (w i : ℕ) : Bool :=
  zPass (col.getD i 0 - mean (window col w i)) (svar (window col w i)) z

/-- Whether the centered rolling statistics of width w are defined (not
NaN) at position i of a column of length n: the window must lie fully in
range, and the std with one delta degree of freedom needs at least two
observations. -/
def statsOK (n w i : ℕ) : Prop :=
  2 ≤ w ∧ (w - 1) / 2 ≤ i ∧ i - (w - 1) / 2 + w ≤ n

instance (n w i : ℕ) : Decidable (statsOK n w i) :=
  inferInstanceAs (Decidable (_ ∧ _ ∧ _))

/-- Line 132 of filter.py: keep the rows where the rolling statistics are
defined and both columns have absolute z-score at most z.  Rows where any
rolling statistic is NaN fail the pandas comparison and are dropped. -/
def zFilter (d : List Sample) (z : ℚ) (w : ℕ) : List Sample :=
  let rrs := d.map Sample.rr
  let rls := d.map Sample.rl
  d.enum.filterMap fun p =>
    if statsOK d.length w p.1 ∧ colPass rrs z w p.1 = true ∧ colPass rls z w p.1 = true
    then some p.2 else none

/-- clean_data with its in-place effect made explicit.  The first
component is the returned cleaned dataset; the second is the state of the
DataFrame object the caller passed in once the call returns.  Line 103
writes the coerced columns back into the callers frame, which on the
Option-cell model is the identity, and line 109 drops the NaN rows from
the callers frame in place; every later step rebinds a local name only. -/
def clean_dataS (minR maxR : ℚ) (d : List RawRow) (z : ℚ) (w : ℕ) :
    List Sample × List RawRow :=
  let callerState := d.filter fun r => r.rr.isSome && r.rl.isSome
  let numeric := dropna d
  let ranged := rangeFilter minR maxR numeric
  let kept := if 0 < z then zFilter ranged z w else ranged
  (kept.map round3Sample, callerState)

/-- clean_data as a transformation: coercion and NaN drop, the inclusive
rpm range filter, the optional rolling z-score filter, and the final
rounding to three decimals. -/
def clean_data (minR maxR : ℚ) (d : List RawRow) (z : ℚ) (w : ℕ) :
    List Sample :=
  (clean_dataS minR maxR d z w).1

/-- detect_differential_load, lines 137 to 156: keep the rows whose
absolute wheel-speed difference strictly exceeds the threshold, attach
that difference as a new column, and round the result to three
decimals. -/
def detect_differential_load (d : List Sample) (threshold : ℚ) : List DiffRow :=
  (d.filter fun s => decide (threshold < |s.rr - s.rl|)).map fun s =>
    round3Diff ⟨s.time, s.rr, s.rl, |s.rr - s.rl|⟩

/-- Consecutive pairs of rows, predecessor first: the positional pairing
behind the pandas diff of lines 174 to 178.  The first row has no
predecessor; its NaN differences fail every comparison, so it can never be
selected, and it is simply absent from the candidate pairs. -/
def slipCandidates (d : List Sample) : List (Sample × Sample) := d.zip d.tail

/-- detect_slip_events, lines 158 to 191: sort by time, take the rounded
consecutive differences of time and of both wheel speeds, keep the rows
whose rounded time gap is at most maxGap and whose rounded speed jump in
either wheel strictly exceeds the threshold, and round the result. -/
def detect_slip_events (d : List Sample) (slipThreshold maxGap : ℚ) :
    List SlipRow :=
  let s := sortByTime d
  ((slipCandidates s).filter fun pc =>
      decide (round3 (pc.2.time - pc.1.time) ≤ maxGap) &&
        (decide (slipThreshold < |round3 (pc.2.rr - pc.1.rr)|) ||
          decide (slipThreshold < |round3 (pc.2.rl - pc.1.rl)|))).map
    fun pc =>
      round3Slip ⟨pc.2.time, pc.2.rr, pc.2.rl, round3 (pc.2.time - pc.1.time),
        round3 (pc.2.rr - pc.1.rr), round3 (pc.2.rl - pc.1.rl)⟩

/-- filter_by_steering, lines 193 to 215: if the steering column is
absent the input is returned unchanged, otherwise the rows with steering
angle inside the inclusive range are kept. -/
def filter_by_steering (hasCol : Bool) (d : List SteerRow) (minAngle maxAngle : ℚ) :
    List SteerRow :=
  if hasCol then
    d.filter fun s => decide (minAngle ≤ s.steering ∧ s.steering ≤ maxAngle)
  else d

/-- detect_differential_load with its effect on the callers DataFrame made
explicit: the function only reads the input and builds a fresh copy, so
the second component equals the input. -/
def detect_differential_loadS (d : List Sample) (threshold : ℚ) :
    List DiffRow × List Sample :=
  (detect_differential_load d threshold, d)

/-- detect_slip_events with its effect on the callers DataFrame made
explicit: sort_values returns a fresh frame and all added columns go into
that copy, so the second component equals the input. -/
def detect_slip_eventsS (d : List Sample) (slipThreshold maxGap : ℚ) :
    List SlipRow × List Sample :=
  (detect_slip_events d slipThreshold maxGap, d)

/-- filter_by_steering with its effect on the callers DataFrame made
explicit: the function only reads the input, so the second component
equals the input. -/
def filter_by_steeringS (hasCol : Bool) (d : List SteerRow) (minAngle maxAngle : ℚ) :
    List SteerRow × List SteerRow :=
  (filter_by_steering hasCol d minAngle maxAngle, d)

/-- A sample whose three fields all have at most three decimal digits.
Every row of the binned view and of the cleaned dataset, the specified
inputs of the downstream stages, is of this shape. -/
def MilliSample (s : Sample) : Prop :=
  IsMilli s.time ∧ IsMilli s.rr ∧ IsMilli s.rl

instance (s : Sample) : Decidable (MilliSample s) :=
  inferInstanceAs (Decidable (_ ∧ _ ∧ _))

/-- Reinterpret a coerced sample as a raw row with numeric cells. -/
def toRawRow (s : Sample) : RawRow := ⟨s.time, some s.rr, some s.rl⟩

/-- A raw row whose time and whose numeric cells all have at most three
decimal digits (a NaN cell carries no constraint). -/
def MilliRawRow (r : RawRow) : Prop :=
  IsMilli r.time ∧ IsMilli (r.rr.getD 0) ∧ IsMilli (r.rl.getD 0)

instance (r : RawRow) : Decidable (MilliRawRow r) :=
  inferInstanceAs (Decidable (_ ∧ _ ∧ _))

/-- Modelled from the spec: the comparison pipeline of C4, numeric
coercion and NaN drop followed by only the inclusive range filter, with no
statistical filtering, output rounded to three decimals. -/
def rangeOnlyClean (minR maxR : ℚ) (d : List RawRow) : List Sample :=
  (rangeFilter minR maxR (dropna d)).map round3Sample

/-- The specified acceptance condition of the statistical filter for one
column at position i: the magnitude of the rolling z-score, the deviation
from the window mean divided by the window standard deviation where an
exactly zero standard deviation is replaced by one, is at most z.  Stated
over the reals because the standard deviation is a square root. -/
def ZScoreOk (col : List ℚ) (z : ℚ) (w i : ℕ) : Prop :=
  |((col.getD i 0 : ℚ) : ℝ) - ((mean (window col w i) : ℚ) : ℝ)| ≤
    (z : ℝ) *
      (if svar (window col w i) = 0 then 1
        else Real.sqrt ((svar (window col w i) : ℚ) : ℝ))

/-- Bucket keys of the binned view: the distinct bucket values in the
ascending order in which pandas groupby emits them. -/
def bucketKeys (d : List Sample) (b : ℚ) : List ℚ :=
  List.insertionSort (· ≤ ·)
    ((((sortByTime d).map fun s => { s with time := bucket b s.time }).map
      Sample.time).dedup)

/-- Modelled from the spec: the binned row of C5 for bucket start k, the
averages of the numeric columns over the input rows in the half-open
interval from k to k plus the bin width, rounded to three decimals. -/
def specBinRow (d : List Sample) (b k : ℚ) : Sample :=
  ⟨round3 k,
    round3 (mean ((d.filter fun s =>
      decide (k ≤ s.time ∧ s.time < k + b)).map Sample.rr)),
    round3 (mean ((d.filter fun s =>
      decide (k ≤ s.time ∧ s.time < k + b)).map Sample.rl))⟩

theorem isMilli_iff {x : ℚ} : IsMilli x ↔ ∃ m : ℤ, x = (m : ℚ) / 1000 := by
  constructor
  · intro h
    refine ⟨(x * 1000).num, ?_⟩
    have hx : ((x * 1000).num : ℚ) = x * 1000 := (Rat.den_eq_one_iff _).mp h
    rw [hx]
    field_simp
  · rintro ⟨m, rfl⟩
    have h : (m : ℚ) / 1000 * 1000 = (m : ℚ) := by field_simp
    unfold IsMilli
    rw [h, Rat.den_intCast]

theorem isMilli_sub {x y : ℚ} (hx : IsMilli x) (hy : IsMilli y) :
    IsMilli (x - y) := by
  rcases isMilli_iff.mp hx with ⟨m, rfl⟩
  rcases isMilli_iff.mp hy with ⟨k, rfl⟩
  refine isMilli_iff.mpr ⟨m - k, ?_⟩
  push_cast
  ring

theorem isMilli_neg {x : ℚ} (hx : IsMilli x) : IsMilli (-x) := by
  rcases isMilli_iff.mp hx with ⟨m, rfl⟩
  refine isMilli_iff.mpr ⟨-m, ?_⟩
  push_cast
  ring

theorem isMilli_abs {x : ℚ} (hx : IsMilli x) : IsMilli |x| := by
  rcases abs_choice x with h | h
  · rwa [h]
  · rw [h]; exact isMilli_neg hx

theorem roundHalfEven_intCast (m : ℤ) : roundHalfEven (m : ℚ) = m := by
  unfold roundHalfEven
  rw [Int.floor_intCast]
  simp

/-- Rounding to three decimals fixes every value that already has at most
three decimal digits. -/
theorem round3_eq_self {x : ℚ} (h : IsMilli x) : round3 x = x := by
  rcases isMilli_iff.mp h with ⟨m, rfl⟩
  unfold round3
  have h1 : (m : ℚ) / 1000 * 1000 = (m : ℚ) := by field_simp
  rw [h1, roundHalfEven_intCast]

theorem round3_isMilli (x : ℚ) : IsMilli (round3 x) := by
  refine isMilli_iff.mpr ⟨roundHalfEven (x * 1000), ?_⟩
  rfl

/-- C9: applying the cleaner, the differential-load detector and the slip
detector to an empty dataset returns an empty dataset for every choice of
the threshold parameters; every stage is a total function, so no exception
can be raised. -/
theorem empty_input_empty_outputs :
    ∀ (minR maxR z thrD thrS gap : ℚ) (w : ℕ),
      clean_data minR maxR [] z w = [] ∧
        detect_differential_load [] thrD = [] ∧
        detect_slip_events [] thrS gap = [] := by
  intro minR maxR z thrD thrS gap w
  refine ⟨?_, rfl, rfl⟩
  simp [clean_data, clean_dataS, dropna, rangeFilter, zFilter]

/-- C10: the slip detector decides eligibility on the rounded differences.
For the concrete two-row dataset below the raw right-wheel jump is
400.0004, strictly above the threshold 400, and the raw time gap 0.1 is
within the bound 0.125, yet the jump rounds to 400.000 which is not
strictly above the threshold, so the detector emits no event: the
classification differs from a comparison on the unrounded values. -/
theorem slip_rounding_decides_eligibility :
    (400 < |(100 + 4000004/10000 : ℚ) - 100|) ∧
      ((1/10 : ℚ) - 0 ≤ 1/8) ∧
      ¬ (400 < |round3 ((100 + 4000004/10000 : ℚ) - 100)|) ∧
      detect_slip_events
        [⟨0, 100, 100⟩, ⟨1/10, 100 + 4000004/10000, 100⟩] 400 (1/8) = [] := by
  refine ⟨by decide, by decide, by decide, by decide⟩

/-- C8 counterexample: the cleaner is not side-effect-free.  On a dataset
holding one row with a NaN wheel-speed cell, the DataFrame object the
caller passed in no longer equals its original value after the call: the
in-place dropna of line 109 removed the row from it. -/
theorem clean_data_mutates_input :
    (clean_dataS 10 3000 [⟨0, none, some 100⟩] 0 15).2 ≠
      [⟨0, none, some 100⟩] := by
  decide

/-- C8 amended: the two detectors and the steering filter leave the
dataset passed in unchanged, and their results are fresh derived
snapshots; the cleaner however coerces the speed columns and drops the
NaN rows in place, so after the call the callers DataFrame equals its
original rows restricted to those with numeric speed cells. -/
theorem stage_effects_on_input :
    ∀ (d : List Sample) (d2 : List RawRow) (ds : List SteerRow) (hasCol : Bool)
      (minR maxR z thr thrS gap minA maxA : ℚ) (w : ℕ),
      (detect_differential_loadS d thr).2 = d ∧
        (detect_slip_eventsS d thrS gap).2 = d ∧
        (filter_by_steeringS hasCol ds minA maxA).2 = ds ∧
        (clean_dataS minR maxR d2 z w).2 =
          d2.filter fun r => r.rr.isSome && r.rl.isSome :=
  fun _ _ _ _ _ _ _ _ _ _ _ _ _ => ⟨rfl, rfl, rfl, rfl⟩

/-- C7 counterexample: the raw view returned by load_data does not remove
exact-duplicate time values.  On a dataset with two rows at time 1 the raw
view keeps both rows, so its time values are not pairwise distinct. -/
theorem raw_view_keeps_duplicate_times :
    ((rawView [⟨1, 1, 1⟩, ⟨1, 2, 2⟩]).map Sample.time = [1, 1]) ∧
      (rawView [⟨1, 1, 1⟩, ⟨1, 2, 2⟩]).length = 2 ∧
      ¬ ((rawView [⟨1, 1, 1⟩, ⟨1, 2, 2⟩]).map Sample.time).Nodup := by
  refine ⟨by decide, by decide, by decide⟩

theorem floor_le_roundHalfEven (x : ℚ) : ⌊x⌋ ≤ roundHalfEven x := by
  unfold roundHalfEven
  split_ifs <;> omega

theorem roundHalfEven_le_floor_add_one (x : ℚ) : roundHalfEven x ≤ ⌊x⌋ + 1 := by
  unfold roundHalfEven
  split_ifs <;> omega

/-- Rounding half to even is monotone. -/
theorem roundHalfEven_mono {x y : ℚ} (h : x ≤ y) :
    roundHalfEven x ≤ roundHalfEven y := by
  rcases lt_or_le ⌊x⌋ ⌊y⌋ with hf | hf
  · calc roundHalfEven x ≤ ⌊x⌋ + 1 := roundHalfEven_le_floor_add_one x
      _ ≤ ⌊y⌋ := by omega
      _ ≤ roundHalfEven y := floor_le_roundHalfEven y
  · have hfe : ⌊x⌋ = ⌊y⌋ := le_antisymm (Int.floor_le_floor h) hf
    have hcast : ((⌊x⌋ : ℤ) : ℚ) = ((⌊y⌋ : ℤ) : ℚ) := by exact_mod_cast hfe
    have hr : x - (⌊x⌋ : ℚ) ≤ y - (⌊y⌋ : ℚ) := by rw [hcast]; linarith
    unfold roundHalfEven
    split_ifs <;> first | omega | linarith | simp_all

/-- Rounding to three decimals is monotone. -/
theorem round3_mono {x y : ℚ} (h : x ≤ y) : round3 x ≤ round3 y := by
  unfold round3
  have h1 : roundHalfEven (x * 1000) ≤ roundHalfEven (y * 1000) :=
    roundHalfEven_mono (by linarith)
  have h2 : ((roundHalfEven (x * 1000) : ℤ) : ℚ) ≤ (roundHalfEven (y * 1000) : ℚ) := by
    exact_mod_cast h1
  exact div_le_div_of_nonneg_right h2 (by norm_num) |>.trans_eq rfl

/-- C7 amended: the raw view returned by load_data is sorted ascending by
time and consists exactly of the input rows rounded to three decimals, as
a permutation; duplicate time values are retained, not removed. -/
theorem raw_view_sorted_rounded :
    ∀ d : List Sample,
      List.Sorted timeLE (rawView d) ∧
        (rawView d).Perm (d.map round3Sample) := by
  intro d
  constructor
  · have hs : List.Sorted timeLE (sortByTime d) := List.sorted_insertionSort timeLE d
    exact List.Pairwise.map round3Sample (fun a b hab => round3_mono hab) hs
  · exact (List.perm_insertionSort timeLE d).map round3Sample

/-- C2: on a dataset of three-decimal rows (the cleaned dataset), the
differential-load detector returns exactly the rows whose absolute
wheel-speed gap strictly exceeds the threshold, each carrying the added
difference column equal to that gap; lowering the threshold never removes
an output row; and when no row exceeds the threshold the result is the
empty dataset rather than an error. -/
theorem differential_load_characterization :
    ∀ (d : List Sample) (thr : ℚ), (∀ s ∈ d, MilliSample s) →
      (∀ r : DiffRow,
          r ∈ detect_differential_load d thr ↔
            ∃ s ∈ d, thr < |s.rr - s.rl| ∧
              r = ⟨s.time, s.rr, s.rl, |s.rr - s.rl|⟩) ∧
        (∀ thr2 : ℚ, thr2 ≤ thr →
          ∀ r ∈ detect_differential_load d thr,
            r ∈ detect_differential_load d thr2) ∧
        ((∀ s ∈ d, |s.rr - s.rl| ≤ thr) →
          detect_differential_load d thr = []) := by
  intro d thr hm
  have hround : ∀ s ∈ d,
      round3Diff ⟨s.time, s.rr, s.rl, |s.rr - s.rl|⟩ =
        ⟨s.time, s.rr, s.rl, |s.rr - s.rl|⟩ := by
    intro s hs
    obtain ⟨h1, h2, h3⟩ := hm s hs
    simp [round3Diff, round3_eq_self, h1, h2, h3,
      round3_eq_self (isMilli_abs (isMilli_sub h2 h3))]
  refine ⟨?_, ?_, ?_⟩
  · intro r
    unfold detect_differential_load
    simp only [List.mem_map, List.mem_filter, decide_eq_true_eq]
    constructor
    · rintro ⟨s, ⟨hs, hlt⟩, rfl⟩
      exact ⟨s, hs, hlt, hround s hs⟩
    · rintro ⟨s, hs, hlt, rfl⟩
      exact ⟨s, ⟨hs, hlt⟩, hround s hs⟩
  · intro thr2 hle r hr
    unfold detect_differential_load at hr ⊢
    simp only [List.mem_map, List.mem_filter, decide_eq_true_eq] at hr ⊢
    obtain ⟨s, ⟨hs, hlt⟩, rfl⟩ := hr
    exact ⟨s, ⟨hs, lt_of_le_of_lt hle hlt⟩, rfl⟩
  · intro hall
    unfold detect_differential_load
    have : d.filter (fun s => decide (thr < |s.rr - s.rl|)) = [] := by
      simp only [List.filter_eq_nil_iff, decide_eq_true_eq]
      intro s hs
      exact not_lt.mpr (hall s hs)
    rw [this]
    rfl

/-- Witness for C2 at the scenario of the specification: threshold 100 on
three rows flags the second and third rows with differences 135 and
134. -/
theorem differential_load_characterization_witness :
    ((⟨1/10, 105, 240, 135⟩ : DiffRow) ∈
        detect_differential_load
          [⟨0, 100, 100⟩, ⟨1/10, 105, 240⟩, ⟨1/5, 108, 242⟩] 100) ↔
      ∃ s ∈ [(⟨0, 100, 100⟩ : Sample), ⟨1/10, 105, 240⟩, ⟨1/5, 108, 242⟩],
        (100 : ℚ) < |s.rr - s.rl| ∧
          (⟨1/10, 105, 240, 135⟩ : DiffRow) = ⟨s.time, s.rr, s.rl, |s.rr - s.rl|⟩ :=
  (differential_load_characterization
    [⟨0, 100, 100⟩, ⟨1/10, 105, 240⟩, ⟨1/5, 108, 242⟩] 100 (by decide)).1 _

/-- Membership in the pairing of a list with its own tail: the candidate
pairs of the slip detector are exactly the pairs of a row at index j and
its successor at index j plus one. -/
theorem mem_zip_tail {l : List Sample} {x : Sample × Sample} :
    x ∈ l.zip l.tail ↔ ∃ j : ℕ, l[j]? = some x.1 ∧ l[j + 1]? = some x.2 := by
  obtain ⟨x1, x2⟩ := x
  induction l with
  | nil => simp
  | cons a rest ih =>
    cases rest with
    | nil => simp
    | cons b t =>
      constructor
      · intro hx
        rcases List.mem_cons.mp hx with h | h
        · refine ⟨0, ?_, ?_⟩
          · simp only [Prod.mk.injEq] at h
            simp [h.1]
          · simp only [Prod.mk.injEq] at h
            simp [h.2]
        · obtain ⟨j, h1, h2⟩ := ih.mp h
          exact ⟨j + 1, by simpa using h1, by simpa using h2⟩
      · rintro ⟨j, h1, h2⟩
        cases j with
        | zero =>
          simp only [List.getElem?_cons_zero, List.getElem?_cons_succ,
            Option.some.injEq] at h1 h2
          subst h1
          subst h2
          exact List.mem_cons_self _ _
        | succ j =>
          simp only [List.getElem?_cons_succ] at h1 h2
          exact List.mem_cons_of_mem _ (ih.mpr ⟨j, h1, by simpa using h2⟩)

/-- C1: on a time-sorted dataset of three-decimal rows (the cleaned
dataset that the slip detector receives), a slip event row is emitted
exactly for the rows with a predecessor, i.e. the row at index j plus one
for some j, whose time gap to the predecessor is at most maxGap (a gap
exactly equal to maxGap is eligible) and whose jump in either wheel speed
strictly exceeds the threshold (a jump exactly equal to the threshold does
not count); the row at index zero has no predecessor and never appears. -/
theorem slip_events_characterization :
    ∀ (d : List Sample) (thr maxGap : ℚ),
      List.Sorted timeLE d → (∀ s ∈ d, MilliSample s) →
      ∀ r : SlipRow,
        r ∈ detect_slip_events d thr maxGap ↔
          ∃ (j : ℕ) (p c : Sample), d[j]? = some p ∧ d[j + 1]? = some c ∧
            c.time - p.time ≤ maxGap ∧
            (thr < |c.rr - p.rr| ∨ thr < |c.rl - p.rl|) ∧
            r = ⟨c.time, c.rr, c.rl, c.time - p.time, c.rr - p.rr, c.rl - p.rl⟩ := by
  intro d thr maxGap hsort hm r
  have hmem_of : ∀ {j : ℕ} {s : Sample}, d[j]? = some s → s ∈ d := by
    intro j s hj
    obtain ⟨hlt, hget⟩ := List.getElem?_eq_some.mp hj
    exact hget ▸ List.getElem_mem hlt
  unfold detect_slip_events slipCandidates
  rw [show sortByTime d = d from List.Sorted.insertionSort_eq hsort]
  simp only [List.mem_map, List.mem_filter, Bool.and_eq_true, Bool.or_eq_true,
    decide_eq_true_eq]
  constructor
  · rintro ⟨⟨p, c⟩, ⟨hmem, hgap, hjump⟩, rfl⟩
    obtain ⟨j, h1, h2⟩ := mem_zip_tail.mp hmem
    obtain ⟨pt, prr, prl⟩ := hm p (hmem_of h1)
    obtain ⟨ct, crr, crl⟩ := hm c (hmem_of h2)
    have e1 : round3 (c.time - p.time) = c.time - p.time :=
      round3_eq_self (isMilli_sub ct pt)
    have e2 : round3 (c.rr - p.rr) = c.rr - p.rr :=
      round3_eq_self (isMilli_sub crr prr)
    have e3 : round3 (c.rl - p.rl) = c.rl - p.rl :=
      round3_eq_self (isMilli_sub crl prl)
    refine ⟨j, p, c, h1, h2, ?_, ?_, ?_⟩
    · rwa [e1] at hgap
    · rcases hjump with h | h
      · exact Or.inl (by rwa [e2] at h)
      · exact Or.inr (by rwa [e3] at h)
    · simp [round3Slip, e1, e2, e3, round3_eq_self, ct, crr, crl,
        round3_eq_self (isMilli_sub ct pt), round3_eq_self (isMilli_sub crr prr),
        round3_eq_self (isMilli_sub crl prl)]
  · rintro ⟨j, p, c, h1, h2, hgap, hjump, rfl⟩
    obtain ⟨pt, prr, prl⟩ := hm p (hmem_of h1)
    obtain ⟨ct, crr, crl⟩ := hm c (hmem_of h2)
    have e1 : round3 (c.time - p.time) = c.time - p.time :=
      round3_eq_self (isMilli_sub ct pt)
    have e2 : round3 (c.rr - p.rr) = c.rr - p.rr :=
      round3_eq_self (isMilli_sub crr prr)
    have e3 : round3 (c.rl - p.rl) = c.rl - p.rl :=
      round3_eq_self (isMilli_sub crl prl)
    refine ⟨(p, c), ⟨mem_zip_tail.mpr ⟨j, h1, h2⟩, ?_, ?_⟩, ?_⟩
    · rwa [e1]
    · rcases hjump with h | h
      · exact Or.inl (by rwa [e2])
      · exact Or.inr (by rwa [e3])
    · simp [round3Slip, e1, e2, e3, round3_eq_self, ct, crr, crl]

/-- Witness for C1 at the scenario of the specification: a jump of the
right wheel from 100 to 500 within 0.05 seconds, threshold 200 and maximum
gap 0.125, flags exactly that transition row with a right delta of 400. -/
theorem slip_events_characterization_witness :
    (⟨1/20, 500, 100, 1/20, 400, 0⟩ : SlipRow) ∈
      detect_slip_events [⟨0, 100, 100⟩, ⟨1/20, 500, 100⟩] 200 (1/8) :=
  (slip_events_characterization [⟨0, 100, 100⟩, ⟨1/20, 500, 100⟩] 200 (1/8)
      (by decide) (by decide) _).mpr
    ⟨0, ⟨0, 100, 100⟩, ⟨1/20, 500, 100⟩, by decide, by decide, by decide,
      Or.inl (by decide), by decide⟩

theorem filterMap_if_sublist {α β : Type} (l : List α) (g : α → β)
    (C : α → Prop) [DecidablePred C] :
    List.Sublist (l.filterMap fun a => if C a then some (g a) else none)
      (l.map g) := by
  induction l with
  | nil => simp
  | cons a rest ih =>
    by_cases h : C a
    · simpa [h] using ih.cons₂ (g a)
    · simpa [h] using ih.cons (g a)

theorem zFilter_sublist (d : List Sample) (z : ℚ) (w : ℕ) :
    List.Sublist (zFilter d z w) d := by
  unfold zFilter
  have h := filterMap_if_sublist (α := ℕ × Sample) d.enum Prod.snd
    (fun p => statsOK d.length w p.1 ∧
      colPass (d.map Sample.rr) z w p.1 = true ∧
      colPass (d.map Sample.rl) z w p.1 = true)
  rw [List.enum_eq_enumFrom, List.enumFrom_map_snd] at h
  exact h

theorem dropna_map_sublist (d : List RawRow) :
    List.Sublist ((dropna d).map toRawRow) d := by
  induction d with
  | nil => simp [dropna]
  | cons r rest ih =>
    rcases hrr : r.rr with _ | a <;> rcases hrl : r.rl with _ | c
    · rw [show dropna (r :: rest) = dropna rest by
        simp [dropna, List.filterMap_cons, hrr, hrl]]
      exact ih.cons r
    · rw [show dropna (r :: rest) = dropna rest by
        simp [dropna, List.filterMap_cons, hrr, hrl]]
      exact ih.cons r
    · rw [show dropna (r :: rest) = dropna rest by
        simp [dropna, List.filterMap_cons, hrr, hrl]]
      exact ih.cons r
    · have hr : r = ⟨r.time, some a, some c⟩ := by
        cases r
        simp_all
      rw [hr]
      simpa [dropna, toRawRow] using
        ih.cons₂ (⟨r.time, some a, some c⟩ : RawRow)

theorem dropna_milli {d : List RawRow} (hm : ∀ r ∈ d, MilliRawRow r) :
    ∀ s ∈ dropna d, MilliSample s := by
  intro s hs
  unfold dropna at hs
  obtain ⟨r, hr, heq⟩ := List.mem_filterMap.mp hs
  rcases hrr : r.rr with _ | a <;> rcases hrl : r.rl with _ | c <;>
      rw [hrr, hrl] at heq
  · exact absurd heq (by simp)
  · exact absurd heq (by simp)
  · exact absurd heq (by simp)
  · obtain ⟨h1, h2, h3⟩ := hm r hr
    rw [hrr] at h2
    rw [hrl] at h3
    cases heq
    exact ⟨h1, by simpa using h2, by simpa using h3⟩

theorem map_round3Sample_id {l : List Sample} (h : ∀ s ∈ l, MilliSample s) :
    l.map round3Sample = l := by
  have h2 : ∀ s ∈ l, round3Sample s = id s := by
    intro s hs
    obtain ⟨h1, h2, h3⟩ := h s hs
    simp [round3Sample, round3_eq_self, h1, h2, h3]
  rw [List.map_congr_left h2, List.map_id]

/-- C4: the cleaner only removes rows.  On a dataset of three-decimal raw
rows (the binned view that clean_data receives), the cleaned output, read
back as raw rows, is a sublist of the input: no row is added and the
relative order is preserved.  Moreover cleaning with a z threshold of zero
is exactly the coercion and NaN drop followed by the inclusive range
filter, with no statistical filtering, for every input. -/
theorem clean_data_subset_and_zero_threshold :
    (∀ (minR maxR z : ℚ) (w : ℕ) (d : List RawRow),
        (∀ r ∈ d, MilliRawRow r) →
        List.Sublist ((clean_data minR maxR d z w).map toRawRow) d) ∧
      ∀ (minR maxR : ℚ) (w : ℕ) (d : List RawRow),
        clean_data minR maxR d 0 w = rangeOnlyClean minR maxR d := by
  constructor
  · intro minR maxR z w d hm
    have hnum : ∀ s ∈ dropna d, MilliSample s := dropna_milli hm
    have hrange : List.Sublist (rangeFilter minR maxR (dropna d)) (dropna d) :=
      List.filter_sublist _
    have hkept :
        List.Sublist
          (if 0 < z then zFilter (rangeFilter minR maxR (dropna d)) z w
            else rangeFilter minR maxR (dropna d))
          (rangeFilter minR maxR (dropna d)) := by
      split_ifs with hz
      · exact zFilter_sublist _ z w
      · exact List.Sublist.refl _
    have hkept2 := hkept.trans hrange
    have hmilli : ∀ s ∈ (if 0 < z then
          zFilter (rangeFilter minR maxR (dropna d)) z w
        else rangeFilter minR maxR (dropna d)), MilliSample s :=
      fun s hs => hnum s (hkept2.subset hs)
    have hfinal : clean_data minR maxR d z w =
        (if 0 < z then zFilter (rangeFilter minR maxR (dropna d)) z w
          else rangeFilter minR maxR (dropna d)).map round3Sample := rfl
    rw [hfinal, map_round3Sample_id hmilli]
    exact (hkept2.map toRawRow).trans (dropna_map_sublist d)
  · intro minR maxR w d
    simp [clean_data, clean_dataS, rangeOnlyClean]

/-- Witness for C4 on a concrete dataset with one NaN cell: the cleaned
output maps back to a sublist of the input. -/
theorem clean_data_subset_witness :
    List.Sublist
      ((clean_data 10 3000 [⟨0, some 100, none⟩, ⟨1/8, some 50, some 60⟩] 2 3).map
        toRawRow)
      [⟨0, some 100, none⟩, ⟨1/8, some 50, some 60⟩] :=
  clean_data_subset_and_zero_threshold.1 10 3000 2 3
    [⟨0, some 100, none⟩, ⟨1/8, some 50, some 60⟩] (by decide)

theorem svar_nonneg (l : List ℚ) : 0 ≤ svar l := by
  cases l with
  | nil => simp [svar, mean]
  | cons a t =>
    apply div_nonneg
    · apply List.sum_nonneg
      intro x hx
      obtain ⟨y, _, rfl⟩ := List.mem_map.mp hx
      positivity
    · have h1 : (1 : ℚ) ≤ ((a :: t).length : ℚ) := by
        exact_mod_cast Nat.succ_le_of_lt (List.length_pos.mpr (by simp))
      linarith

theorem zPass_iff {dev v z : ℚ} (hz : 0 < z) (hv : 0 ≤ v) :
    zPass dev v z = true ↔
      |(dev : ℝ)| ≤ (z : ℝ) * (if v = 0 then 1 else Real.sqrt ((v : ℚ) : ℝ)) := by
  by_cases h0 : v = 0
  · simp only [zPass, h0, if_pos rfl, decide_eq_true_eq, if_true, mul_one]
    constructor
    · intro h
      calc |(dev : ℝ)| = ((|dev| : ℚ) : ℝ) := by push_cast; ring
        _ ≤ (z : ℝ) := by exact_mod_cast h
    · intro h
      have : ((|dev| : ℚ) : ℝ) ≤ (z : ℝ) := by
        calc ((|dev| : ℚ) : ℝ) = |(dev : ℝ)| := by push_cast; ring
          _ ≤ (z : ℝ) := h
      exact_mod_cast this
  · have hvpos : (0 : ℚ) < v := lt_of_le_of_ne hv (Ne.symm h0)
    have hvR : (0 : ℝ) < ((v : ℚ) : ℝ) := by exact_mod_cast hvpos
    have hzR : (0 : ℝ) < (z : ℝ) := by exact_mod_cast hz
    simp only [zPass, h0, if_neg h0, decide_eq_true_eq, if_false]
    have hq : dev ^ 2 ≤ z ^ 2 * v ↔
        ((dev : ℝ)) ^ 2 ≤ ((z : ℝ)) ^ 2 * ((v : ℚ) : ℝ) := by
      constructor
      · intro h; exact_mod_cast h
      · intro h; exact_mod_cast h
    rw [hq]
    have hsq : ((z : ℝ) * Real.sqrt ((v : ℚ) : ℝ)) ^ 2 =
        ((z : ℝ)) ^ 2 * ((v : ℚ) : ℝ) := by
      rw [mul_pow, Real.sq_sqrt hvR.le]
    rw [← hsq, sq_le_sq, abs_of_nonneg (mul_nonneg hzR.le (Real.sqrt_nonneg _))]

theorem colPass_iff {col : List ℚ} {z : ℚ} {w i : ℕ} (hz : 0 < z) :
    colPass col z w i = true ↔ ZScoreOk col z w i := by
  unfold colPass ZScoreOk
  rw [zPass_iff hz (svar_nonneg _)]
  constructor
  · intro h
    calc |((col.getD i 0 : ℚ) : ℝ) - ((mean (window col w i) : ℚ) : ℝ)|
        = |((col.getD i 0 - mean (window col w i) : ℚ) : ℝ)| := by push_cast; ring_nf
      _ ≤ _ := h
  · intro h
    calc |((col.getD i 0 - mean (window col w i) : ℚ) : ℝ)|
        = |((col.getD i 0 : ℚ) : ℝ) - ((mean (window col w i) : ℚ) : ℝ)| := by
          push_cast; ring_nf
      _ ≤ _ := h

/-- C3: with a positive z threshold, a row survives the statistical filter
exactly when the centered rolling statistics of both speed columns are
defined at its position (rows at the edges with an incomplete window have
NaN statistics and are excluded) and both columns have rolling z-score
magnitude at most z, where a rolling standard deviation of exactly zero is
replaced by one.  In particular, on five constant-valued rows with window
three and threshold two the filter inside clean_data retains exactly the
three interior rows: the standard deviation zero is treated as one and the
z-score is zero. -/
theorem zscore_filter_characterization :
    (∀ (d : List Sample) (z : ℚ) (w : ℕ), 0 < z →
        ∀ r : Sample,
          r ∈ zFilter d z w ↔
            ∃ i : ℕ, d[i]? = some r ∧ statsOK d.length w i ∧
              ZScoreOk (d.map Sample.rr) z w i ∧
              ZScoreOk (d.map Sample.rl) z w i) ∧
      clean_data 10 3000
          [⟨0, some 100, some 100⟩, ⟨1/8, some 100, some 100⟩,
            ⟨1/4, some 100, some 100⟩, ⟨3/8, some 100, some 100⟩,
            ⟨1/2, some 100, some 100⟩] 2 3 =
        [⟨1/8, 100, 100⟩, ⟨1/4, 100, 100⟩, ⟨3/8, 100, 100⟩] := by
  constructor
  · intro d z w hz r
    unfold zFilter
    simp only [List.mem_filterMap]
    constructor
    · rintro ⟨⟨i, s⟩, hp, heq⟩
      by_cases hc : statsOK d.length w i ∧
          colPass (d.map Sample.rr) z w i = true ∧
          colPass (d.map Sample.rl) z w i = true
      · rw [if_pos hc] at heq
        obtain ⟨h1, h2, h3⟩ := hc
        cases heq
        refine ⟨i, List.mk_mem_enum_iff_getElem?.mp hp, h1,
          (colPass_iff hz).mp h2, (colPass_iff hz).mp h3⟩
      · rw [if_neg hc] at heq
        exact absurd heq (by simp)
    · rintro ⟨i, hi, h1, h2, h3⟩
      refine ⟨(i, r), List.mk_mem_enum_iff_getElem?.mpr hi, ?_⟩
      rw [if_pos ⟨h1, (colPass_iff hz).mpr h2, (colPass_iff hz).mpr h3⟩]
  · decide

/-- Witness for C3: the characterization instantiated on three constant
rows with window three and threshold two, at the middle row. -/
theorem zscore_filter_characterization_witness :
    ((⟨1/8, 100, 100⟩ : Sample) ∈
        zFilter [⟨0, 100, 100⟩, ⟨1/8, 100, 100⟩, ⟨1/4, 100, 100⟩] 2 3) ↔
      ∃ i : ℕ,
        ([⟨0, 100, 100⟩, ⟨1/8, 100, 100⟩, ⟨1/4, 100, 100⟩] :
            List Sample)[i]? = some ⟨1/8, 100, 100⟩ ∧
          statsOK 3 3 i ∧
          ZScoreOk (([⟨0, 100, 100⟩, ⟨1/8, 100, 100⟩,
            ⟨1/4, 100, 100⟩] : List Sample).map Sample.rr) 2 3 i ∧
          ZScoreOk (([⟨0, 100, 100⟩, ⟨1/8, 100, 100⟩,
            ⟨1/4, 100, 100⟩] : List Sample).map Sample.rl) 2 3 i :=
  zscore_filter_characterization.1
    [⟨0, 100, 100⟩, ⟨1/8, 100, 100⟩, ⟨1/4, 100, 100⟩] 2 3 (by decide) _

theorem mean_perm {l1 l2 : List ℚ} (h : l1.Perm l2) : mean l1 = mean l2 := by
  unfold mean
  rw [h.sum_eq, h.length_eq]

/-- The bucket of a time is the start of the half-open interval of width b
that holds it. -/
theorem bucket_le {b : ℚ} (hb : 0 < b) (t : ℚ) :
    bucket b t ≤ t ∧ t < bucket b t + b := by
  unfold bucket
  constructor
  · have h1 : ((⌊t / b⌋ : ℤ) : ℚ) ≤ t / b := Int.floor_le _
    calc ((⌊t / b⌋ : ℤ) : ℚ) * b ≤ t / b * b :=
          mul_le_mul_of_nonneg_right h1 hb.le
      _ = t := div_mul_cancel₀ t hb.ne'
  · have h1 : t / b < (⌊t / b⌋ : ℚ) + 1 := Int.lt_floor_add_one _
    have h2 : t < ((⌊t / b⌋ : ℚ) + 1) * b := by
      rw [← div_lt_iff₀ hb]
      exact h1
    linarith [h2]

theorem bucket_eq_iff {b : ℚ} (hb : 0 < b) {t u : ℚ} :
    bucket b t = bucket b u ↔ bucket b u ≤ t ∧ t < bucket b u + b := by
  constructor
  · intro h
    rw [← h]
    exact bucket_le hb t
  · rintro ⟨h1, h2⟩
    unfold bucket at h1 h2 ⊢
    have hf : ⌊t / b⌋ = ⌊u / b⌋ := by
      apply Int.floor_eq_iff.mpr
      constructor
      · rw [le_div_iff₀ hb]
        exact h1
      · rw [div_lt_iff₀ hb]
        linarith
    rw [hf]

theorem bucket_mul {b : ℚ} (hb : 0 < b) (m : ℤ) :
    bucket b ((m : ℚ) * b) = (m : ℚ) * b := by
  unfold bucket
  rw [mul_div_cancel_right₀ _ hb.ne', Int.floor_intCast]

/-- Every bucket value is an integer multiple of the bin width. -/
theorem bucket_is_mul (b t : ℚ) : ∃ m : ℤ, bucket b t = (m : ℚ) * b :=
  ⟨⌊t / b⌋, rfl⟩

theorem mem_bucketKeys {d : List Sample} {b k : ℚ} :
    k ∈ bucketKeys d b ↔ ∃ s ∈ d, bucket b s.time = k := by
  unfold bucketKeys
  rw [(List.perm_insertionSort _ _).mem_iff, List.mem_dedup, List.map_map,
    List.mem_map]
  constructor
  · rintro ⟨s0, hs0, rfl⟩
    exact ⟨s0, (List.perm_insertionSort timeLE d).mem_iff.mp hs0, rfl⟩
  · rintro ⟨s, hs, rfl⟩
    exact ⟨s, (List.perm_insertionSort timeLE d).mem_iff.mpr hs, rfl⟩

/-- The projection of the group of rows with bucket value k agrees, as a
mean, with the projection of the input rows in the half-open interval
starting at k, for k a bucket value. -/
theorem group_mean_eq (d : List Sample) {b : ℚ} (hb : 0 < b) (u : ℚ)
    (proj : Sample → ℚ)
    (hproj : ∀ (s : Sample) (k : ℚ), proj { s with time := k } = proj s) :
    mean (((((sortByTime d).map fun s => { s with time := bucket b s.time }).filter
        fun x => decide (x.time = bucket b u)).map proj)) =
      mean ((d.filter fun s =>
        decide (bucket b u ≤ s.time ∧ s.time < bucket b u + b)).map proj) := by
  rw [List.filter_map, List.map_map]
  have hcomp : (proj ∘ fun s => { s with time := bucket b s.time }) = proj :=
    funext fun s => hproj s _
  have hpred : ∀ s ∈ sortByTime d,
      ((fun x => decide (x.time = bucket b u)) ∘
        fun s => { s with time := bucket b s.time }) s =
        decide (bucket b u ≤ s.time ∧ s.time < bucket b u + b) := by
    intro s _
    simp only [Function.comp_apply]
    exact decide_eq_decide.mpr (bucket_eq_iff hb)
  rw [hcomp, List.filter_congr hpred]
  exact mean_perm (((List.perm_insertionSort timeLE d).filter _).map proj)

/-- C5: for a positive bin width, every time is assigned to the bucket
starting at floor of time over width times width, whose half-open interval
holds it; and the binned view consists exactly of one row per occupied
bucket, holding the bucket start and the per-bucket averages of both
numeric columns, all rounded to three decimals. -/
theorem binned_view_characterization :
    ∀ (d : List Sample) (b : ℚ), 0 < b →
      (∀ t : ℚ, bucket b t = (⌊t / b⌋ : ℚ) * b ∧
          bucket b t ≤ t ∧ t < bucket b t + b) ∧
        ∀ r : Sample,
          r ∈ binnedView d b ↔ ∃ s ∈ d, r = specBinRow d b (bucket b s.time) := by
  intro d b hb
  refine ⟨fun t => ⟨rfl, bucket_le hb t⟩, ?_⟩
  intro r
  have hview : binnedView d b =
      (bucketKeys d b).map fun k =>
        round3Sample
          ⟨k,
            mean ((((sortByTime d).map fun s =>
                { s with time := bucket b s.time }).filter
              fun x => decide (x.time = k)).map Sample.rr),
            mean ((((sortByTime d).map fun s =>
                { s with time := bucket b s.time }).filter
              fun x => decide (x.time = k)).map Sample.rl)⟩ := by
    unfold binnedView groupMeans bucketKeys
    rw [List.map_map]
    rfl
  rw [hview, List.mem_map]
  constructor
  · rintro ⟨k, hk, rfl⟩
    obtain ⟨s, hs, rfl⟩ := mem_bucketKeys.mp hk
    refine ⟨s, hs, ?_⟩
    rw [group_mean_eq d hb s.time Sample.rr fun _ _ => rfl,
      group_mean_eq d hb s.time Sample.rl fun _ _ => rfl]
    rfl
  · rintro ⟨s, hs, rfl⟩
    refine ⟨bucket b s.time, mem_bucketKeys.mpr ⟨s, hs, rfl⟩, ?_⟩
    rw [group_mean_eq d hb s.time Sample.rr fun _ _ => rfl,
      group_mean_eq d hb s.time Sample.rl fun _ _ => rfl]
    rfl

/-- Witness for C5 on two rows falling into the same bucket of width an
eighth: the single binned row is the rounded average. -/
theorem binned_view_characterization_witness :
    ((⟨0, 75, 80⟩ : Sample) ∈ binnedView [⟨0, 100, 100⟩, ⟨1/10, 50, 60⟩] (1/8)) ↔
      ∃ s ∈ [(⟨0, 100, 100⟩ : Sample), ⟨1/10, 50, 60⟩],
        (⟨0, 75, 80⟩ : Sample) =
          specBinRow [⟨0, 100, 100⟩, ⟨1/10, 50, 60⟩] (1/8) (bucket (1/8) s.time) :=
  (binned_view_characterization [⟨0, 100, 100⟩, ⟨1/10, 50, 60⟩] (1/8)
    (by decide)).2 _

theorem filter_time_eq_singleton :
    ∀ {rows : List Sample}, (rows.map Sample.time).Nodup →
      ∀ {s : Sample}, s ∈ rows →
        rows.filter (fun x => decide (x.time = s.time)) = [s] := by
  intro rows
  induction rows with
  | nil => intro _ s hs; cases hs
  | cons a rest ih =>
    intro hn s hs
    simp only [List.map_cons, List.nodup_cons] at hn
    obtain ⟨hna, hnr⟩ := hn
    rcases List.mem_cons.mp hs with rfl | hs2
    · rw [List.filter_cons_of_pos (by simp)]
      have hrest : rest.filter (fun x => decide (x.time = s.time)) = [] := by
        rw [List.filter_eq_nil_iff]
        intro x hx
        simp only [decide_eq_true_eq]
        intro hxt
        exact hna (hxt ▸ List.mem_map_of_mem Sample.time hx)
      rw [hrest]
    · have hne : ¬ a.time = s.time := by
        intro h
        exact hna (h ▸ List.mem_map_of_mem Sample.time hs2)
      rw [List.filter_cons_of_neg (by simp [hne])]
      exact ih hnr hs2

theorem mean_singleton (x : ℚ) : mean [x] = x := by
  simp [mean]

/-- On rows with sorted pairwise-distinct times the groupby mean is the
identity: every group is a singleton. -/
theorem groupMeans_eq_self {rows : List Sample}
    (hs : List.Sorted (· ≤ ·) (rows.map Sample.time))
    (hn : (rows.map Sample.time).Nodup) :
    groupMeans rows = rows := by
  unfold groupMeans
  rw [List.dedup_eq_self.mpr hn, List.Sorted.insertionSort_eq hs, List.map_map]
  have h2 : ∀ s ∈ rows,
      ((fun k =>
          (⟨k, mean ((rows.filter fun x => decide (x.time = k)).map Sample.rr),
            mean ((rows.filter fun x => decide (x.time = k)).map Sample.rl)⟩ :
            Sample)) ∘ Sample.time) s = id s := by
    intro s hsm
    simp only [Function.comp_apply, id_eq]
    rw [filter_time_eq_singleton hn hsm]
    simp only [List.map_cons, List.map_nil, mean_singleton]
  rw [List.map_congr_left h2, List.map_id]

theorem keysMap_milli (f1 f2 : ℚ → ℚ) (ks : List ℚ) :
    ∀ s ∈ ks.map fun k => (⟨round3 k, round3 (f1 k), round3 (f2 k)⟩ : Sample),
      MilliSample s := by
  intro s hs
  obtain ⟨k, _, rfl⟩ := List.mem_map.mp hs
  exact ⟨round3_isMilli _, round3_isMilli _, round3_isMilli _⟩

theorem keysMap_time (f1 f2 : ℚ → ℚ) {ks : List ℚ}
    (hm : ∀ k ∈ ks, IsMilli k) :
    (ks.map fun k => (⟨round3 k, round3 (f1 k), round3 (f2 k)⟩ : Sample)).map
      Sample.time = ks := by
  rw [List.map_map]
  have h2 : ∀ k ∈ ks,
      (Sample.time ∘ fun k => (⟨round3 k, round3 (f1 k), round3 (f2 k)⟩ : Sample)) k
        = id k := fun k hk => round3_eq_self (hm k hk)
  rw [List.map_congr_left h2, List.map_id]

/-- C6: for a bin width that is a positive whole number of thousandths
(the configured width 0.125 in particular), the time values of the binned
view are pairwise distinct and strictly ascending, and binning an
already-binned dataset again returns it unchanged. -/
theorem binned_view_unique_times_idempotent :
    ∀ (d : List Sample) (b : ℚ) (n : ℕ), 0 < n → b = (n : ℚ) / 1000 →
      List.Sorted (· < ·) ((binnedView d b).map Sample.time) ∧
        binnedView (binnedView d b) b = binnedView d b := by
  intro d b n hn hbn
  have hb : 0 < b := by
    rw [hbn]
    have h0 : (0 : ℚ) < (n : ℚ) := by exact_mod_cast hn
    positivity
  have hkeysLE : List.Sorted (· ≤ ·) (bucketKeys d b) :=
    List.sorted_insertionSort _ _
  have hkeysNodup : (bucketKeys d b).Nodup :=
    (List.perm_insertionSort _ _).nodup_iff.mpr (List.nodup_dedup _)
  have hkeysLT : List.Sorted (· < ·) (bucketKeys d b) :=
    hkeysLE.lt_of_le hkeysNodup
  have hkmul : ∀ k ∈ bucketKeys d b, ∃ m : ℤ, k = (m : ℚ) * b := by
    intro k hk
    obtain ⟨s, _, rfl⟩ := mem_bucketKeys.mp hk
    exact ⟨⌊s.time / b⌋, rfl⟩
  have hkmilli : ∀ k ∈ bucketKeys d b, IsMilli k := by
    intro k hk
    obtain ⟨m, rfl⟩ := hkmul k hk
    refine isMilli_iff.mpr ⟨m * n, ?_⟩
    rw [hbn]
    push_cast
    ring
  have hview : binnedView d b =
      (bucketKeys d b).map fun k =>
        (⟨round3 k,
          round3 (mean ((((sortByTime d).map fun s =>
              { s with time := bucket b s.time }).filter
            fun x => decide (x.time = k)).map Sample.rr)),
          round3 (mean ((((sortByTime d).map fun s =>
              { s with time := bucket b s.time }).filter
            fun x => decide (x.time = k)).map Sample.rl))⟩ : Sample) := by
    unfold binnedView groupMeans bucketKeys
    rw [List.map_map]
    rfl
  have houtTime : (binnedView d b).map Sample.time = bucketKeys d b := by
    rw [hview]
    exact keysMap_time _ _ hkmilli
  have houtMilli : ∀ s ∈ binnedView d b, MilliSample s := by
    rw [hview]
    exact keysMap_milli _ _ _
  have houtSortedT : List.Sorted (· ≤ ·) ((binnedView d b).map Sample.time) := by
    rw [houtTime]
    exact hkeysLE
  have houtNodup : ((binnedView d b).map Sample.time).Nodup := by
    rw [houtTime]
    exact hkeysNodup
  have houtSortedLE : List.Sorted timeLE (binnedView d b) := by
    have hp := List.pairwise_map.mp houtSortedT
    exact hp
  have hbucketFix : ∀ s ∈ binnedView d b, bucket b s.time = s.time := by
    intro s hs
    have hst : s.time ∈ bucketKeys d b := by
      rw [← houtTime]
      exact List.mem_map_of_mem Sample.time hs
    obtain ⟨m, hm⟩ := hkmul s.time hst
    rw [hm]
    exact bucket_mul hb m
  constructor
  · rw [houtTime]
    exact hkeysLT
  · have h1 : sortByTime (binnedView d b) = binnedView d b :=
      List.Sorted.insertionSort_eq houtSortedLE
    have h2 : (binnedView d b).map
        (fun s => ({ s with time := bucket b s.time } : Sample)) =
        binnedView d b := by
      have hcong : ∀ s ∈ binnedView d b,
          (fun s => ({ s with time := bucket b s.time } : Sample)) s = id s := by
        intro s hs
        have hfix := hbucketFix s hs
        cases s with
        | mk t r l => simp_all
      rw [List.map_congr_left hcong, List.map_id]
    have h3 : groupMeans (binnedView d b) = binnedView d b :=
      groupMeans_eq_self houtSortedT houtNodup
    have h4 : (binnedView d b).map round3Sample = binnedView d b :=
      map_round3Sample_id houtMilli
    show (groupMeans ((sortByTime (binnedView d b)).map fun s =>
        { s with time := bucket b s.time })).map round3Sample = binnedView d b
    rw [h1, h2, h3, h4]

/-- Witness for C6 at bin width an eighth, which is 125 thousandths, on a
concrete two-row dataset collapsing into one bucket. -/
theorem binned_view_unique_times_idempotent_witness :
    List.Sorted (· < ·)
        ((binnedView [⟨0, 100, 100⟩, ⟨1/10, 50, 60⟩] (1/8)).map Sample.time) ∧
      binnedView (binnedView [⟨0, 100, 100⟩, ⟨1/10, 50, 60⟩] (1/8)) (1/8) =
        binnedView [⟨0, 100, 100⟩, ⟨1/10, 50, 60⟩] (1/8) :=
  binned_view_unique_times_idempotent [⟨0, 100, 100⟩, ⟨1/10, 50, 60⟩] (1/8) 125
    (by decide) (by decide)
